import Mathlib

/-!
Shallow embedding of `src/CPM_PERT.py` (a CPM/PERT scheduling script).

Numbers are modelled by `ℚ` (the script works on Python floats; all
claim-relevant arithmetic is +, -, *, /, max, min and comparisons, which we
model exactly).  Python dicts (insertion-ordered, assignment overwrites in
place) are modelled by insertion-ordered association lists.  The networkx
`DiGraph` is modelled by its node list and edge list in insertion order.
-/

set_option maxHeartbeats 1000000

namespace CPMPert

/-- One spreadsheet row as consumed by `read_activity_data` (lines 11-28):
columns `Activity`, `Precedent`, `A`, `M`, `B`. -/
structure Row where
  activity : String
  precedent : String
  a : ℚ
  m : ℚ
  b : ℚ
deriving Repr, DecidableEq

/-- The per-activity data stored in the `activities` dict (lines 22-27). -/
structure ActData where
  optimistic : ℚ
  most_likely : ℚ
  pessimistic : ℚ
  predecessors : List String
deriving Repr, DecidableEq

/-- Python dict lookup `d.get(k)` on an insertion-ordered association list. -/
def lookup? {α : Type} (m : List (String × α)) (k : String) : Option α :=
  (m.find? (fun e => decide (e.1 = k))).map (fun e => e.2)

/-- Python dict lookup `d.get(k, default)` (used at lines 69 and 78). -/
def lookupD {α : Type} (m : List (String × α)) (k : String) (d : α) : α :=
  (lookup? m k).getD d

/-- Python dict assignment `d[k] = v`: an existing key keeps its position and
gets the new value, a new key is appended at the end. -/
def dictInsert {α : Type} (m : List (String × α)) (k : String) (v : α) :
    List (String × α) :=
  if m.any (fun e => decide (e.1 = k)) then
    m.map (fun e => if e.1 = k then (k, v) else e)
  else
    m ++ [(k, v)]

/-- Python `max(l, default=d)` on rationals (line 69). -/
def pymax (l : List ℚ) (d : ℚ) : ℚ :=
  match l with
  | [] => d
  | x :: xs => xs.foldl max x

/-- Python `min(l, default=d)` on rationals (line 78). -/
def pymin (l : List ℚ) (d : ℚ) : ℚ :=
  match l with
  | [] => d
  | x :: xs => xs.foldl min x

/-- Lines 16-17: `str(row['Precedent']).split(',')`, then per-piece `strip()`
and the filter dropping empty pieces and the stringified-NaN piece `'nan'`. -/
def parsePreds (s : String) : List String :=
  ((s.splitOn ",").map String.trim).filter (fun p => decide (p ≠ "" ∧ p ≠ "nan"))

/-- Lines 11-28, `read_activity_data`: builds the `activities` dict keyed by
the stripped activity name; a later row with the same stripped name
overwrites the earlier entry (plain dict assignment, no validation). -/
def read_activity_data (rows : List Row) : List (String × ActData) :=
  rows.foldl
    (fun acts r =>
      dictInsert acts r.activity.trim ⟨r.a, r.m, r.b, parsePreds r.precedent⟩)
    []

/-- Line 37: `te = (o + 4*m + p) / 6`. -/
def TE (d : ActData) : ℚ := (d.optimistic + 4 * d.most_likely + d.pessimistic) / 6

/-- Line 38: `variance_val = ((p - o) / 6) ** 2`. -/
def variance_val (d : ActData) : ℚ := ((d.pessimistic - d.optimistic) / 6) ^ 2

/-- Line 39: `std_dev = sqrt(variance_val)`. -/
noncomputable def std_dev_val (d : ActData) : ℝ := Real.sqrt (variance_val d)

/-- The networkx `DiGraph` of the script: node list and edge list in
insertion order. -/
structure Graph where
  nodes : List String
  edges : List (String × String)
deriving Repr, DecidableEq

/-- Models `G.add_node(n)`: a node already present is kept, a new one is appended. -/
def addNode (g : Graph) (n : String) : Graph :=
  if n ∈ g.nodes then g else ⟨g.nodes ++ [n], g.edges⟩

/-- Models `G.add_edge(u, v)` (line 54): silently adds missing endpoints as nodes,
then records the edge (a `DiGraph` keeps at most one copy of an edge). -/
def addEdge (g : Graph) (u v : String) : Graph :=
  let g1 := addNode (addNode g u) v
  if (u, v) ∈ g1.edges then g1 else ⟨g1.nodes, g1.edges ++ [(u, v)]⟩

/-- Lines 51-54: one node per ingested activity, one edge
predecessor → activity per listed predecessor name. -/
def buildGraph (acts : List (String × ActData)) : Graph :=
  acts.foldl
    (fun g e => e.2.predecessors.foldl (fun g' p => addEdge g' p e.1) (addNode g e.1))
    ⟨[], []⟩

/-- The `duration` node attribute: `TE` for ingested activities (line 52),
defaulted to 0 for nodes created only by `add_edge` (lines 57-59). -/
def durationOf (acts : List (String × ActData)) (n : String) : ℚ :=
  match lookup? acts n with
  | some d => TE d
  | none => 0

/-- The `variance` node attribute (line 52, default at lines 60-61). -/
def varianceOf (acts : List (String × ActData)) (n : String) : ℚ :=
  match lookup? acts n with
  | some d => variance_val d
  | none => 0

/-- Models `G.predecessors(node)`: sources of the edges into `n`. -/
def Graph.preds (g : Graph) (n : String) : List String :=
  (g.edges.filter (fun e => decide (e.2 = n))).map (fun e => e.1)

/-- Models `G.successors(node)`: targets of the edges out of `n`. -/
def Graph.succs (g : Graph) (n : String) : List String :=
  (g.edges.filter (fun e => decide (e.1 = n))).map (fun e => e.2)

/-- The two dicts built by the forward pass (lines 66-67). -/
structure FwdState where
  es : List (String × ℚ)
  ef : List (String × ℚ)
deriving Repr, DecidableEq

/-- One iteration of the forward loop (lines 68-72):
`es = max([earliest_finish.get(pred, 0) for pred in G.predecessors(node)], default=0)`,
`ef = es + duration(node)`. -/
def fwdStep (g : Graph) (dur : String → ℚ) (st : FwdState) (n : String) : FwdState :=
  let es := pymax ((g.preds n).map (fun p => lookupD st.ef p 0)) 0
  ⟨st.es ++ [(n, es)], st.ef ++ [(n, es + dur n)]⟩

/-- The forward pass over a topological order of the graph (lines 66-72). -/
def fwdPass (g : Graph) (dur : String → ℚ) (order : List String) : FwdState :=
  order.foldl (fwdStep g dur) ⟨[], []⟩

/-- Python `max(d, key=d.get)` over a dict: the first key attaining the
maximal value. -/
def pyArgmax (l : List (String × ℚ)) : Option (String × ℚ) :=
  match l with
  | [] => none
  | x :: xs => some (xs.foldl (fun best y => if best.2 < y.2 then y else best) x)

/-- Line 88 (and the default expression of line 78):
`earliest_finish[max(earliest_finish, key=earliest_finish.get)]`. -/
def totalProjectDuration (ef : List (String × ℚ)) : ℚ :=
  match pyArgmax ef with
  | some kv => lookupD ef kv.1 0
  | none => 0

/-- The two dicts built by the backward pass (lines 75-76). -/
structure BwdState where
  lf : List (String × ℚ)
  ls : List (String × ℚ)
deriving Repr, DecidableEq

/-- One iteration of the backward loop (lines 77-81):
`lf = min([latest_start.get(succ, T) for succ in G.successors(node)], default=T)`
with `T` the line-88 expression, `ls = lf - duration(node)`. -/
def bwdStep (g : Graph) (dur : String → ℚ) (T : ℚ) (st : BwdState) (n : String) : BwdState :=
  let lf := pymin ((g.succs n).map (fun s => lookupD st.ls s T)) T
  ⟨st.lf ++ [(n, lf)], st.ls ++ [(n, lf - dur n)]⟩

/-- The backward pass: the same topological order, reversed (line 77). -/
def bwdPass (g : Graph) (dur : String → ℚ) (T : ℚ) (order : List String) : BwdState :=
  order.reverse.foldl (bwdStep g dur T) ⟨[], []⟩

/-- Line 84: `[node for node in G.nodes if earliest_start[node] == latest_start[node]]`
(exact float equality, no tolerance). -/
def criticalPath (g : Graph) (es ls : List (String × ℚ)) : List String :=
  g.nodes.filter (fun n => decide (lookupD es n 0 = lookupD ls n 0))

/-- Earliest start of `n` after the full pipeline on graph `g`, node
durations `dur` and topological order `order`. -/
def ESof (g : Graph) (dur : String → ℚ) (order : List String) (n : String) : ℚ :=
  lookupD (fwdPass g dur order).es n 0

/-- Earliest finish of `n`. -/
def EFof (g : Graph) (dur : String → ℚ) (order : List String) (n : String) : ℚ :=
  lookupD (fwdPass g dur order).ef n 0

/-- Line 88: `total_project_duration` (and the default expression of line 78). -/
def totalOf (g : Graph) (dur : String → ℚ) (order : List String) : ℚ :=
  totalProjectDuration (fwdPass g dur order).ef

/-- Latest finish of `n`. -/
def LFof (g : Graph) (dur : String → ℚ) (order : List String) (n : String) : ℚ :=
  lookupD (bwdPass g dur (totalOf g dur order) order).lf n 0

/-- Latest start of `n`. -/
def LSof (g : Graph) (dur : String → ℚ) (order : List String) (n : String) : ℚ :=
  lookupD (bwdPass g dur (totalOf g dur order) order).ls n 0

/-- The `critical_path` list computed at line 84 for the full pipeline. -/
def criticalOf (g : Graph) (dur : String → ℚ) (order : List String) : List String :=
  criticalPath g (fwdPass g dur order).es (bwdPass g dur (totalOf g dur order) order).ls

/-- Asserts that `order` is a topological ordering of `g`, as produced by
`nx.topological_sort` (line 68): each node exactly once, every edge going
from an earlier to a later position. -/
def topoOf (g : Graph) (order : List String) : Prop :=
  order.Nodup ∧ (∀ x ∈ g.nodes, x ∈ order) ∧ (∀ x ∈ order, x ∈ g.nodes) ∧
    ∀ e ∈ g.edges, List.Sublist [e.1, e.2] order

/-- The Python runtime error raised by evaluating an unbound global name. -/
inductive PertError where
  | nameError
deriving Repr, DecidableEq

/-- Line 121 reads the global name `total_standard_deviation`, but no
assignment to that name exists anywhere in `src/CPM_PERT.py`; we model the
global binding of that name explicitly, and in the script as written the
binding is `none` (so evaluating it raises `NameError`). -/
def total_standard_deviation : Option ℚ := none

/-- Evaluation of a global name under its binding. -/
def pyGlobal (b : Option ℚ) : Except PertError ℚ :=
  match b with
  | none => Except.error PertError.nameError
  | some v => Except.ok v

/-- Line 121: `(total_project_duration - earliest_finish[activity]) /
total_standard_deviation if total_standard_deviation > 0 else 0` — the
condition is evaluated first, so an unbound `total_standard_deviation`
raises before any arithmetic happens. -/
def pertZ (tsdB : Option ℚ) (total ef : ℚ) : Except PertError ℚ :=
  match pyGlobal tsdB with
  | Except.error e => Except.error e
  | Except.ok tsd => Except.ok (if 0 < tsd then (total - ef) / tsd else 0)

/-- The PERT loop of lines 117-135 restricted to the z-score computation
(line 122's `norm.cdf` is reached only after line 121 succeeds). -/
def pertZRows (tsdB : Option ℚ) (acts : List (String × ActData)) (total : ℚ)
    (efm : List (String × ℚ)) : Except PertError (List (String × ℚ)) :=
  acts.mapM (fun e => (pertZ tsdB total (lookupD efm e.1 0)).map (fun z => (e.1, z)))

/-- Line 148: `[activities[a]['TE'] for a in specific_activities if a in activities]`. -/
def specificDurations (specific : List String) (acts : List (String × ActData)) :
    List ℚ :=
  specific.filterMap (fun a => (lookup? acts a).map TE)

/-- Models `statistics.mean`. -/
def listMean (l : List ℚ) : ℚ := l.sum / l.length

/-- Models `statistics.variance` (library code, modelled from its documented
definition): sample variance, sum of squared deviations from the mean
divided by `n - 1`. -/
def sampleVariance (l : List ℚ) : ℚ :=
  (l.map (fun x => (x - listMean l) ^ 2)).sum / ((l.length : ℚ) - 1)

/-- Lines 151-156: sample variance of the found durations when more than one
was found, otherwise 0. -/
def specific_variance (specific : List String) (acts : List (String × ActData)) : ℚ :=
  if 1 < (specificDurations specific acts).length then
    sampleVariance (specificDurations specific acts)
  else 0

/-- Lines 151-156: `statistics.stdev` (the square root of the sample
variance) when more than one duration was found, otherwise 0. -/
noncomputable def specific_std_dev (specific : List String)
    (acts : List (String × ActData)) : ℝ :=
  if 1 < (specificDurations specific acts).length then
    Real.sqrt (sampleVariance (specificDurations specific acts))
  else 0

/-- The activity store for the worked example of the specification:
A(1,2,3,∅), B(2,4,6,{A}), C(1,1,1,{A}). -/
def exActs : List (String × ActData) :=
  [("A", ⟨1, 2, 3, []⟩), ("B", ⟨2, 4, 6, ["A"]⟩), ("C", ⟨1, 1, 1, ["A"]⟩)]

def exG : Graph := buildGraph exActs

def exDur : String → ℚ := durationOf exActs

def exOrder : List String := ["A", "B", "C"]

/-- A store with two parallel activities whose expected times differ by
10⁻¹⁰ (both rows are degenerate three-point estimates, so TE is the common
value): slack of "A" ends up strictly between 0 and the 10⁻⁹ tolerance. -/
def acts5 : List (String × ActData) :=
  [("A", ⟨1, 1, 1, []⟩),
   ("B", ⟨10000000001/10000000000, 10000000001/10000000000, 10000000001/10000000000, []⟩)]

def g5 : Graph := buildGraph acts5

def order5 : List String := ["A", "B"]

/-- A single zero-variance activity: its critical path has total variance 0,
the degenerate PERT case of the claim. -/
def actsZ : List (String × ActData) := [("Z", ⟨1, 1, 1, []⟩)]

def gZ : Graph := buildGraph actsZ

def orderZ : List String := ["Z"]

/-- A single positive-variance activity: variance ((3-1)/6)² = 1/9 > 0. -/
def actsW : List (String × ActData) := [("W", ⟨1, 2, 3, []⟩)]

def gW : Graph := buildGraph actsW

def orderW : List String := ["W"]

/-- A store whose only activity lists a predecessor name, "X", that matches
no ingested activity. -/
def acts7 : List (String × ActData) := [("A", ⟨1, 2, 3, ["X"]⟩)]

def g7 : Graph := buildGraph acts7

def order7 : List String := ["X", "A"]

/-- A record with an empty activity name and optimistic > most-likely >
pessimistic (3 > 1 > 0): the specification says ingestion must reject it. -/
def badRow : Row := ⟨"", "nan", 3, 1, 0⟩

/-- Evaluating `buildGraph` on the example store produces the expected graph. -/
theorem exG_eq : exG = ⟨["A", "B", "C"], [("A", "B"), ("A", "C")]⟩ := by decide

theorem ex_topo : topoOf exG exOrder := by
  unfold topoOf; decide

theorem ex_fwdPass : fwdPass exG exDur exOrder =
    ⟨[("A", 0), ("B", 2), ("C", 2)], [("A", 2), ("B", 6), ("C", 3)]⟩ := by
  simp [fwdPass, fwdStep, pymax, lookupD, lookup?, Graph.preds, durationOf, TE,
    exG_eq, exDur, exActs, exOrder, String.reduceEq, List.find?_cons,
    List.filter_cons, List.filter_nil]
  norm_num

theorem ex_totalOf : totalOf exG exDur exOrder = 6 := by
  rw [totalOf, ex_fwdPass]
  norm_num [totalProjectDuration, pyArgmax]
  simp [lookupD, lookup?, String.reduceEq, List.find?_cons]

theorem ex_bwdPass : bwdPass exG exDur 6 exOrder =
    ⟨[("C", 6), ("B", 6), ("A", 2)], [("C", 5), ("B", 2), ("A", 0)]⟩ := by
  simp [bwdPass, bwdStep, pymin, lookupD, lookup?, Graph.succs, durationOf, TE,
    exG_eq, exDur, exActs, exOrder, String.reduceEq, List.find?_cons,
    List.filter_cons, List.filter_nil]
  norm_num

theorem ex_critical : criticalOf exG exDur exOrder = ["A", "B"] := by
  rw [criticalOf, ex_totalOf, ex_fwdPass, ex_bwdPass]
  simp [criticalPath, lookupD, lookup?, exG_eq, String.reduceEq, List.find?_cons,
    List.filter_cons, List.filter_nil]

/-! ### Association-list (Python dict) lemmas -/

theorem lookup?_cons {α : Type} (e : String × α) (m : List (String × α)) (k : String) :
    lookup? (e :: m) k = if e.1 = k then some e.2 else lookup? m k := by
  by_cases h : e.1 = k <;> simp [lookup?, List.find?_cons, h]

theorem lookup?_append_left {α : Type} (m₁ m₂ : List (String × α)) (k : String)
    (h : k ∈ m₁.map Prod.fst) : lookup? (m₁ ++ m₂) k = lookup? m₁ k := by
  induction m₁ with
  | nil => simp at h
  | cons e t ih =>
    by_cases he : e.1 = k
    · simp [List.cons_append, lookup?_cons, he]
    · have h' : k ∈ t.map Prod.fst := by
        rcases (by simpa using h) with h1 | h1
        · exact absurd h1.symm he
        · simpa using h1
      simp [List.cons_append, lookup?_cons, he, ih h']

theorem lookup?_append_right {α : Type} (m₁ m₂ : List (String × α)) (k : String)
    (h : k ∉ m₁.map Prod.fst) : lookup? (m₁ ++ m₂) k = lookup? m₂ k := by
  induction m₁ with
  | nil => simp
  | cons e t ih =>
    have he : e.1 ≠ k := by intro hk; exact h (by simp [hk])
    have h' : k ∉ t.map Prod.fst := by intro hk; exact h (by simp [hk])
    simp [List.cons_append, lookup?_cons, he, ih h']

theorem exists_lookup?_of_mem_keys {α : Type} (m : List (String × α)) (k : String)
    (h : k ∈ m.map Prod.fst) : ∃ v, lookup? m k = some v := by
  induction m with
  | nil => simp at h
  | cons e t ih =>
    by_cases he : e.1 = k
    · exact ⟨e.2, by simp [lookup?_cons, he]⟩
    · have h' : k ∈ t.map Prod.fst := by
        rcases (by simpa using h) with h1 | h1
        · exact absurd h1.symm he
        · simpa using h1
      rcases ih h' with ⟨v, hv⟩
      exact ⟨v, by simp [lookup?_cons, he, hv]⟩

theorem mem_of_lookup?_eq_some {α : Type} {m : List (String × α)} {k : String} {v : α}
    (h : lookup? m k = some v) : (k, v) ∈ m := by
  induction m with
  | nil => simp [lookup?] at h
  | cons e t ih =>
    rw [lookup?_cons] at h
    by_cases he : e.1 = k
    · rw [if_pos he] at h
      obtain ⟨e1, e2⟩ := e
      obtain rfl : e2 = v := Option.some.inj h
      obtain rfl : e1 = k := he
      exact List.mem_cons_self _ _
    · rw [if_neg he] at h
      exact List.mem_cons_of_mem _ (ih h)

theorem lookup?_eq_some_of_mem_nodup {α : Type} {m : List (String × α)}
    (hn : (m.map Prod.fst).Nodup) {k : String} {v : α} (h : (k, v) ∈ m) :
    lookup? m k = some v := by
  induction m with
  | nil => simp at h
  | cons e t ih =>
    have hn' : (t.map Prod.fst).Nodup := by
      rw [List.map_cons, List.nodup_cons] at hn
      exact hn.2
    rcases List.mem_cons.mp h with h1 | h1
    · rw [← h1, lookup?_cons]
      simp
    · have hk : k ∈ t.map Prod.fst := by
        exact List.mem_map.mpr ⟨(k, v), h1, rfl⟩
      have he : e.1 ≠ k := by
        rw [List.map_cons, List.nodup_cons] at hn
        intro hek
        exact hn.1 (hek ▸ hk)
      rw [lookup?_cons, if_neg he]
      exact ih hn' h1

/-! ### Lemmas about the Python max/min idioms -/

theorem le_foldl_max (l : List ℚ) (b : ℚ) : b ≤ l.foldl max b := by
  induction l generalizing b with
  | nil => simp
  | cons x t ih => exact le_trans (le_max_left b x) (ih (max b x))

theorem mem_le_foldl_max {x : ℚ} {l : List ℚ} (h : x ∈ l) (b : ℚ) :
    x ≤ l.foldl max b := by
  induction l generalizing b with
  | nil => simp at h
  | cons y t ih =>
    rw [List.foldl_cons]
    rcases List.mem_cons.mp h with h1 | h1
    · subst h1
      exact le_trans (le_max_right b _) (le_foldl_max t _)
    · exact ih h1 (max b y)

theorem le_pymax_of_mem {x : ℚ} {l : List ℚ} (h : x ∈ l) (d : ℚ) : x ≤ pymax l d := by
  cases l with
  | nil => simp at h
  | cons y t =>
    rcases List.mem_cons.mp h with h1 | h1
    · exact h1 ▸ le_foldl_max t y
    · exact mem_le_foldl_max h1 y

theorem foldl_max_mem (t : List ℚ) (b : ℚ) : t.foldl max b ∈ b :: t := by
  induction t generalizing b with
  | nil => simp
  | cons y t ih =>
    rw [List.foldl_cons]
    rcases List.mem_cons.mp (ih (max b y)) with h1 | h1
    · rcases max_choice b y with h2 | h2
      · rw [h1, h2]
        exact List.mem_cons_self _ _
      · rw [h1, h2]
        exact List.mem_cons_of_mem _ (List.mem_cons_self _ _)
    · exact List.mem_cons_of_mem _ (List.mem_cons_of_mem _ h1)

theorem pymax_mem {l : List ℚ} (h : l ≠ []) (d : ℚ) : pymax l d ∈ l := by
  cases l with
  | nil => exact absurd rfl h
  | cons y t => exact foldl_max_mem t y

theorem le_foldl_min {c b : ℚ} {l : List ℚ} (hb : c ≤ b) (h : ∀ x ∈ l, c ≤ x) :
    c ≤ l.foldl min b := by
  induction l generalizing b with
  | nil => simpa
  | cons y t ih =>
    exact ih (le_min hb (h y (by simp))) (fun x hx => h x (by simp [hx]))

theorem le_pymin {c d : ℚ} {l : List ℚ} (hd : c ≤ d) (h : ∀ x ∈ l, c ≤ x) :
    c ≤ pymin l d := by
  cases l with
  | nil => exact hd
  | cons y t =>
    exact le_foldl_min (h y (by simp)) (fun x hx => h x (by simp [hx]))

/-! ### Lemmas about pyArgmax -/

theorem foldl_argmax_spec (t : List (String × ℚ)) (b : String × ℚ) :
    (t.foldl (fun best y => if best.2 < y.2 then y else best) b) ∈ b :: t ∧
      b.2 ≤ (t.foldl (fun best y => if best.2 < y.2 then y else best) b).2 ∧
      ∀ e ∈ t, e.2 ≤ (t.foldl (fun best y => if best.2 < y.2 then y else best) b).2 := by
  induction t generalizing b with
  | nil => simp
  | cons y t ih =>
    by_cases hlt : b.2 < y.2
    · have h := ih y
      simp only [List.foldl_cons, if_pos hlt]
      refine ⟨?_, le_trans (le_of_lt hlt) h.2.1, ?_⟩
      · rcases List.mem_cons.mp h.1 with h1 | h1 <;> simp [h1]
      · intro e he
        rcases List.mem_cons.mp he with h1 | h1
        · exact h1 ▸ h.2.1
        · exact h.2.2 e h1
    · have h := ih b
      simp only [List.foldl_cons, if_neg hlt]
      refine ⟨?_, h.2.1, ?_⟩
      · rcases List.mem_cons.mp h.1 with h1 | h1 <;> simp [h1, List.mem_cons_of_mem]
      · intro e he
        rcases List.mem_cons.mp he with h1 | h1
        · exact h1 ▸ le_trans (le_of_not_lt hlt) h.2.1
        · exact h.2.2 e h1

theorem pyArgmax_spec {l : List (String × ℚ)} {kv : String × ℚ}
    (h : pyArgmax l = some kv) : kv ∈ l ∧ ∀ e ∈ l, e.2 ≤ kv.2 := by
  cases l with
  | nil => simp [pyArgmax] at h
  | cons x t =>
    have hkv : kv = t.foldl (fun best y => if best.2 < y.2 then y else best) x := by
      simpa [pyArgmax] using h.symm
    have hs := foldl_argmax_spec t x
    subst hkv
    refine ⟨hs.1, ?_⟩
    intro e he
    rcases List.mem_cons.mp he with h1 | h1
    · exact h1 ▸ hs.2.1
    · exact hs.2.2 e h1

/-! ### Positional lemmas about topological orders -/

theorem pair_sublist_mem (u v : String) :
    ∀ (l₁ : List String) {l₂ : List String}, List.Sublist [u, v] (l₁ ++ v :: l₂) →
      v ∉ l₁ → v ∉ l₂ → u ∈ l₁ := by
  intro l₁
  induction l₁ with
  | nil =>
    intro l₂ h hv1 hv2
    exfalso
    cases h with
    | cons _ h' =>
      exact hv2 (h'.subset (by simp))
    | cons₂ _ h' =>
      exact hv2 (h'.subset (by simp))
  | cons a t ih =>
    intro l₂ h hv1 hv2
    rw [List.cons_append] at h
    cases h with
    | cons _ h' =>
      have hu : u ∈ t := ih h' (fun hx => hv1 (by simp [hx])) hv2
      exact List.mem_cons_of_mem _ hu
    | cons₂ _ h' =>
      simp

theorem pair_sublist_rev {u v : String} {l : List String}
    (h : List.Sublist [u, v] l) : List.Sublist [v, u] l.reverse := by
  have := h.reverse
  simpa using this

/-! ### Graph adjacency lemmas -/

theorem mem_preds {g : Graph} {p n : String} : p ∈ g.preds n ↔ (p, n) ∈ g.edges := by
  constructor
  · intro h
    obtain ⟨e, he, rfl⟩ := List.mem_map.mp h
    have hf := List.mem_filter.mp he
    have h2 : e.2 = n := by simpa using hf.2
    have : (e.1, e.2) ∈ g.edges := by simpa using hf.1
    rwa [h2] at this
  · intro h
    exact List.mem_map.mpr ⟨(p, n), List.mem_filter.mpr ⟨h, by simp⟩, rfl⟩

theorem mem_succs {g : Graph} {n s : String} : s ∈ g.succs n ↔ (n, s) ∈ g.edges := by
  constructor
  · intro h
    obtain ⟨e, he, rfl⟩ := List.mem_map.mp h
    have hf := List.mem_filter.mp he
    have h1 : e.1 = n := by simpa using hf.2
    have : (e.1, e.2) ∈ g.edges := by simpa using hf.1
    rwa [h1] at this
  · intro h
    exact List.mem_map.mpr ⟨(n, s), List.mem_filter.mpr ⟨h, by simp⟩, rfl⟩

theorem nodup_split_not_mem {m₁ : List String} {n : String} {m₂ : List String}
    (h : (m₁ ++ n :: m₂).Nodup) : n ∉ m₁ ∧ n ∉ m₂ := by
  rw [List.nodup_append] at h
  obtain ⟨h1, h2, h3⟩ := h
  exact ⟨fun hn => h3 hn (List.mem_cons_self n m₂), (List.nodup_cons.mp h2).1⟩

/-! ### Forward-pass structure lemmas -/

theorem fwdStep_es (g : Graph) (dur : String → ℚ) (st : FwdState) (n : String) :
    (fwdStep g dur st n).es =
      st.es ++ [(n, pymax ((g.preds n).map (fun p => lookupD st.ef p 0)) 0)] := rfl

theorem fwdStep_ef (g : Graph) (dur : String → ℚ) (st : FwdState) (n : String) :
    (fwdStep g dur st n).ef =
      st.ef ++ [(n, pymax ((g.preds n).map (fun p => lookupD st.ef p 0)) 0 + dur n)] := rfl

theorem fwd_es_keys (g : Graph) (dur : String → ℚ) :
    ∀ (l : List String) (st : FwdState),
      ((List.foldl (fwdStep g dur) st l).es).map Prod.fst = st.es.map Prod.fst ++ l := by
  intro l
  induction l with
  | nil => intro st; simp
  | cons n t ih =>
    intro st
    rw [List.foldl_cons, ih]
    simp [fwdStep_es]

theorem fwd_ef_keys (g : Graph) (dur : String → ℚ) :
    ∀ (l : List String) (st : FwdState),
      ((List.foldl (fwdStep g dur) st l).ef).map Prod.fst = st.ef.map Prod.fst ++ l := by
  intro l
  induction l with
  | nil => intro st; simp
  | cons n t ih =>
    intro st
    rw [List.foldl_cons, ih]
    simp [fwdStep_ef]

theorem fwd_ef_stable (g : Graph) (dur : String → ℚ) :
    ∀ (l : List String) (st : FwdState) (k : String), k ∈ st.ef.map Prod.fst →
      lookup? (List.foldl (fwdStep g dur) st l).ef k = lookup? st.ef k := by
  intro l
  induction l with
  | nil => intro st k _; rfl
  | cons n t ih =>
    intro st k hk
    rw [List.foldl_cons]
    have hk' : k ∈ (fwdStep g dur st n).ef.map Prod.fst := by
      rw [fwdStep_ef]
      simp only [List.map_append, List.mem_append]
      exact Or.inl hk
    rw [ih _ _ hk', fwdStep_ef, lookup?_append_left _ _ _ hk]

theorem fwd_es_stable (g : Graph) (dur : String → ℚ) :
    ∀ (l : List String) (st : FwdState) (k : String), k ∈ st.es.map Prod.fst →
      lookup? (List.foldl (fwdStep g dur) st l).es k = lookup? st.es k := by
  intro l
  induction l with
  | nil => intro st k _; rfl
  | cons n t ih =>
    intro st k hk
    rw [List.foldl_cons]
    have hk' : k ∈ (fwdStep g dur st n).es.map Prod.fst := by
      rw [fwdStep_es]
      simp only [List.map_append, List.mem_append]
      exact Or.inl hk
    rw [ih _ _ hk', fwdStep_es, lookup?_append_left _ _ _ hk]

theorem fwd_decomp (g : Graph) (dur : String → ℚ) (l₁ : List String) (n : String)
    (l₂ : List String) (hnd : (l₁ ++ n :: l₂).Nodup) :
    ESof g dur (l₁ ++ n :: l₂) n =
      pymax ((g.preds n).map (fun p => lookupD (fwdPass g dur l₁).ef p 0)) 0 ∧
    EFof g dur (l₁ ++ n :: l₂) n = ESof g dur (l₁ ++ n :: l₂) n + dur n := by
  have hn₁ : n ∉ l₁ := (nodup_split_not_mem hnd).1
  have hkeys_es : (fwdPass g dur l₁).es.map Prod.fst = l₁ := by
    have := fwd_es_keys g dur l₁ ⟨[], []⟩
    simpa [fwdPass] using this
  have hkeys_ef : (fwdPass g dur l₁).ef.map Prod.fst = l₁ := by
    have := fwd_ef_keys g dur l₁ ⟨[], []⟩
    simpa [fwdPass] using this
  have hsplit : fwdPass g dur (l₁ ++ n :: l₂) =
      List.foldl (fwdStep g dur) (fwdStep g dur (fwdPass g dur l₁) n) l₂ := by
    rw [fwdPass, List.foldl_append, List.foldl_cons]
    rfl
  have hstep_es : (fwdStep g dur (fwdPass g dur l₁) n).es =
      (fwdPass g dur l₁).es ++
        [(n, pymax ((g.preds n).map (fun p => lookupD (fwdPass g dur l₁).ef p 0)) 0)] :=
    fwdStep_es ..
  have hstep_ef : (fwdStep g dur (fwdPass g dur l₁) n).ef =
      (fwdPass g dur l₁).ef ++
        [(n, pymax ((g.preds n).map (fun p => lookupD (fwdPass g dur l₁).ef p 0)) 0 + dur n)] :=
    fwdStep_ef ..
  have hmem_es : n ∈ (fwdStep g dur (fwdPass g dur l₁) n).es.map Prod.fst := by
    rw [hstep_es]
    simp
  have hmem_ef : n ∈ (fwdStep g dur (fwdPass g dur l₁) n).ef.map Prod.fst := by
    rw [hstep_ef]
    simp
  have hes : lookup? (fwdPass g dur (l₁ ++ n :: l₂)).es n =
      some (pymax ((g.preds n).map (fun p => lookupD (fwdPass g dur l₁).ef p 0)) 0) := by
    rw [hsplit, fwd_es_stable g dur l₂ _ n hmem_es, hstep_es,
      lookup?_append_right _ _ _ (by rw [hkeys_es]; exact hn₁), lookup?_cons]
    simp
  have hef : lookup? (fwdPass g dur (l₁ ++ n :: l₂)).ef n =
      some (pymax ((g.preds n).map (fun p => lookupD (fwdPass g dur l₁).ef p 0)) 0 + dur n) := by
    rw [hsplit, fwd_ef_stable g dur l₂ _ n hmem_ef, hstep_ef,
      lookup?_append_right _ _ _ (by rw [hkeys_ef]; exact hn₁), lookup?_cons]
    simp
  constructor
  · rw [ESof, lookupD, hes]
    rfl
  · rw [EFof, ESof, lookupD, lookupD, hes, hef]
    rfl

theorem fwd_pred_final (g : Graph) (dur : String → ℚ) (l₁ : List String) (n : String)
    (l₂ : List String) (p : String) (hp : p ∈ l₁) :
    lookupD (fwdPass g dur l₁).ef p 0 = EFof g dur (l₁ ++ n :: l₂) p := by
  have hkeys_ef : (fwdPass g dur l₁).ef.map Prod.fst = l₁ := by
    have := fwd_ef_keys g dur l₁ ⟨[], []⟩
    simpa [fwdPass] using this
  have hsplit : fwdPass g dur (l₁ ++ n :: l₂) =
      List.foldl (fwdStep g dur) (fwdPass g dur l₁) (n :: l₂) := by
    rw [fwdPass, List.foldl_append]
    rfl
  simp only [EFof, lookupD]
  rw [hsplit, fwd_ef_stable g dur (n :: l₂) _ p (by rw [hkeys_ef]; exact hp)]

theorem forward_node_char (g : Graph) (dur : String → ℚ) (order : List String)
    (ht : topoOf g order) (n : String) (hn : n ∈ order) :
    ESof g dur order n = pymax ((g.preds n).map (fun p => EFof g dur order p)) 0 ∧
    EFof g dur order n = ESof g dur order n + dur n := by
  obtain ⟨l₁, l₂, rfl⟩ := List.append_of_mem hn
  obtain ⟨hES, hEF⟩ := fwd_decomp g dur l₁ n l₂ ht.1
  refine ⟨?_, hEF⟩
  rw [hES]
  congr 1
  apply List.map_congr_left
  intro p hp
  have hedge : (p, n) ∈ g.edges := mem_preds.mp hp
  have hsub : List.Sublist [p, n] (l₁ ++ n :: l₂) := ht.2.2.2 _ hedge
  have hnm := nodup_split_not_mem ht.1
  exact fwd_pred_final g dur l₁ n l₂ p (pair_sublist_mem p n l₁ hsub hnm.1 hnm.2)

theorem edge_ef_le_es (g : Graph) (dur : String → ℚ) (order : List String)
    (ht : topoOf g order) {u v : String} (he : (u, v) ∈ g.edges) :
    EFof g dur order u ≤ ESof g dur order v := by
  have hv : v ∈ order := (ht.2.2.2 _ he).subset (by simp)
  rw [(forward_node_char g dur order ht v hv).1]
  exact le_pymax_of_mem (List.mem_map.mpr ⟨u, mem_preds.mpr he, rfl⟩) 0

theorem totalOf_spec (g : Graph) (dur : String → ℚ) (order : List String)
    (hnd : order.Nodup) (hne : order ≠ []) :
    (∀ n ∈ order, EFof g dur order n ≤ totalOf g dur order) ∧
    ∃ m ∈ order, EFof g dur order m = totalOf g dur order := by
  have hkeys : (fwdPass g dur order).ef.map Prod.fst = order := by
    have := fwd_ef_keys g dur order ⟨[], []⟩
    simpa [fwdPass] using this
  have hkn : ((fwdPass g dur order).ef.map Prod.fst).Nodup := by rw [hkeys]; exact hnd
  have hefne : (fwdPass g dur order).ef ≠ [] := by
    intro h
    rw [h] at hkeys
    exact hne (by simpa using hkeys.symm)
  obtain ⟨c, t, hct⟩ := List.exists_cons_of_ne_nil hefne
  have hargmax : ∃ kv, pyArgmax (fwdPass g dur order).ef = some kv := by
    rw [hct]
    exact ⟨_, rfl⟩
  obtain ⟨kv, hkv⟩ := hargmax
  obtain ⟨hkv_mem, hkv_max⟩ := pyArgmax_spec hkv
  have hmem' : (kv.1, kv.2) ∈ (fwdPass g dur order).ef := by
    rw [Prod.mk.eta]
    exact hkv_mem
  have hT : totalOf g dur order = kv.2 := by
    rw [totalOf, totalProjectDuration, hkv]
    simp only [lookupD]
    rw [lookup?_eq_some_of_mem_nodup hkn hmem']
    rfl
  constructor
  · intro n hn
    obtain ⟨v, hv⟩ := exists_lookup?_of_mem_keys _ n (by rw [hkeys]; exact hn)
    have hEFn : EFof g dur order n = v := by rw [EFof, lookupD, hv]; rfl
    have : (n, v) ∈ (fwdPass g dur order).ef := mem_of_lookup?_eq_some hv
    have := hkv_max (n, v) this
    rw [hEFn, hT]
    exact this
  · refine ⟨kv.1, ?_, ?_⟩
    · rw [← hkeys]
      exact List.mem_map.mpr ⟨kv, hkv_mem, rfl⟩
    · simp only [EFof, lookupD]
      rw [lookup?_eq_some_of_mem_nodup hkn hmem', hT]
      rfl

theorem max_ef_sink (g : Graph) (dur : String → ℚ) (order : List String)
    (ht : topoOf g order) (hd : ∀ x, 0 ≤ dur x) :
    ∀ (l₂ l₁ : List String), order = l₁ ++ l₂ →
      (∃ n ∈ l₂, EFof g dur order n = totalOf g dur order) →
      ∃ m ∈ l₂, g.succs m = [] ∧ EFof g dur order m = totalOf g dur order := by
  intro l₂
  induction l₂ with
  | nil =>
    rintro l₁ _ ⟨n, hn, _⟩
    simp at hn
  | cons a t ih =>
    rintro l₁ horder ⟨n, hn, hEF⟩
    rcases List.mem_cons.mp hn with rfl | hnt
    · cases hsucc : g.succs n with
      | nil => exact ⟨n, List.mem_cons_self n t, hsucc, hEF⟩
      | cons s ss =>
        have hs : s ∈ g.succs n := by
          rw [hsucc]
          exact List.mem_cons_self s ss
        have hedge : (n, s) ∈ g.edges := mem_succs.mp hs
        have hsub : List.Sublist [n, s] order := ht.2.2.2 _ hedge
        have hrev : List.Sublist [s, n] order.reverse := pair_sublist_rev hsub
        have hrev' : List.Sublist [s, n] (t.reverse ++ n :: l₁.reverse) := by
          rw [horder, List.reverse_append, List.reverse_cons, List.append_assoc] at hrev
          simpa using hrev
        have hnodup : (l₁ ++ n :: t).Nodup := by rw [← horder]; exact ht.1
        have hnm := nodup_split_not_mem hnodup
        have hst : s ∈ t := by
          have := pair_sublist_mem s n t.reverse hrev'
            (by simpa using hnm.2) (by simpa using hnm.1)
          simpa using this
        have hsorder : s ∈ order := by
          rw [horder]
          exact List.mem_append_right _ (List.mem_cons_of_mem _ hst)
        have h1 : EFof g dur order n ≤ ESof g dur order s :=
          edge_ef_le_es g dur order ht hedge
        have h2 := (forward_node_char g dur order ht s hsorder).2
        have h3 : EFof g dur order s ≤ totalOf g dur order := by
          have hne : order ≠ [] := List.ne_nil_of_mem hsorder
          exact (totalOf_spec g dur order ht.1 hne).1 s hsorder
        have hEFs : EFof g dur order s = totalOf g dur order := by
          have hds := hd s
          have : totalOf g dur order ≤ EFof g dur order s := by
            rw [h2, ← hEF]
            linarith
          linarith
        obtain ⟨m, hm, hrest⟩ := ih (l₁ ++ [n]) (by rw [horder]; simp) ⟨s, hst, hEFs⟩
        exact ⟨m, List.mem_cons_of_mem _ hm, hrest⟩
    · obtain ⟨m, hm, hrest⟩ := ih (l₁ ++ [a]) (by rw [horder]; simp) ⟨n, hnt, hEF⟩
      exact ⟨m, List.mem_cons_of_mem _ hm, hrest⟩

/-! ### Backward-pass structure lemmas -/

theorem bwdStep_lf (g : Graph) (dur : String → ℚ) (T : ℚ) (st : BwdState) (n : String) :
    (bwdStep g dur T st n).lf =
      st.lf ++ [(n, pymin ((g.succs n).map (fun s => lookupD st.ls s T)) T)] := rfl

theorem bwdStep_ls (g : Graph) (dur : String → ℚ) (T : ℚ) (st : BwdState) (n : String) :
    (bwdStep g dur T st n).ls =
      st.ls ++ [(n, pymin ((g.succs n).map (fun s => lookupD st.ls s T)) T - dur n)] := rfl

theorem bwd_lf_keys (g : Graph) (dur : String → ℚ) (T : ℚ) :
    ∀ (l : List String) (st : BwdState),
      ((List.foldl (bwdStep g dur T) st l).lf).map Prod.fst = st.lf.map Prod.fst ++ l := by
  intro l
  induction l with
  | nil => intro st; simp
  | cons n t ih =>
    intro st
    rw [List.foldl_cons, ih]
    simp [bwdStep_lf]

theorem bwd_ls_keys (g : Graph) (dur : String → ℚ) (T : ℚ) :
    ∀ (l : List String) (st : BwdState),
      ((List.foldl (bwdStep g dur T) st l).ls).map Prod.fst = st.ls.map Prod.fst ++ l := by
  intro l
  induction l with
  | nil => intro st; simp
  | cons n t ih =>
    intro st
    rw [List.foldl_cons, ih]
    simp [bwdStep_ls]

theorem bwd_lf_stable (g : Graph) (dur : String → ℚ) (T : ℚ) :
    ∀ (l : List String) (st : BwdState) (k : String), k ∈ st.lf.map Prod.fst →
      lookup? (List.foldl (bwdStep g dur T) st l).lf k = lookup? st.lf k := by
  intro l
  induction l with
  | nil => intro st k _; rfl
  | cons n t ih =>
    intro st k hk
    rw [List.foldl_cons]
    have hk' : k ∈ (bwdStep g dur T st n).lf.map Prod.fst := by
      rw [bwdStep_lf]
      simp only [List.map_append, List.mem_append]
      exact Or.inl hk
    rw [ih _ _ hk', bwdStep_lf, lookup?_append_left _ _ _ hk]

theorem bwd_ls_stable (g : Graph) (dur : String → ℚ) (T : ℚ) :
    ∀ (l : List String) (st : BwdState) (k : String), k ∈ st.ls.map Prod.fst →
      lookup? (List.foldl (bwdStep g dur T) st l).ls k = lookup? st.ls k := by
  intro l
  induction l with
  | nil => intro st k _; rfl
  | cons n t ih =>
    intro st k hk
    rw [List.foldl_cons]
    have hk' : k ∈ (bwdStep g dur T st n).ls.map Prod.fst := by
      rw [bwdStep_ls]
      simp only [List.map_append, List.mem_append]
      exact Or.inl hk
    rw [ih _ _ hk', bwdStep_ls, lookup?_append_left _ _ _ hk]

theorem bwd_decomp (g : Graph) (dur : String → ℚ) (T : ℚ) (m₁ : List String)
    (n : String) (m₂ : List String) (hnd : (m₁ ++ n :: m₂).Nodup) :
    lookup? (List.foldl (bwdStep g dur T) ⟨[], []⟩ (m₁ ++ n :: m₂)).lf n =
      some (pymin ((g.succs n).map
        (fun s => lookupD (List.foldl (bwdStep g dur T) ⟨[], []⟩ m₁).ls s T)) T) ∧
    lookup? (List.foldl (bwdStep g dur T) ⟨[], []⟩ (m₁ ++ n :: m₂)).ls n =
      some (pymin ((g.succs n).map
        (fun s => lookupD (List.foldl (bwdStep g dur T) ⟨[], []⟩ m₁).ls s T)) T - dur n) := by
  have hn₁ : n ∉ m₁ := (nodup_split_not_mem hnd).1
  have hkeys_lf : (List.foldl (bwdStep g dur T) ⟨[], []⟩ m₁).lf.map Prod.fst = m₁ := by
    simpa using bwd_lf_keys g dur T m₁ ⟨[], []⟩
  have hkeys_ls : (List.foldl (bwdStep g dur T) ⟨[], []⟩ m₁).ls.map Prod.fst = m₁ := by
    simpa using bwd_ls_keys g dur T m₁ ⟨[], []⟩
  have hsplit : List.foldl (bwdStep g dur T) (⟨[], []⟩ : BwdState) (m₁ ++ n :: m₂) =
      List.foldl (bwdStep g dur T)
        (bwdStep g dur T (List.foldl (bwdStep g dur T) ⟨[], []⟩ m₁) n) m₂ := by
    rw [List.foldl_append, List.foldl_cons]
  have hmem_lf : n ∈ (bwdStep g dur T (List.foldl (bwdStep g dur T) ⟨[], []⟩ m₁) n).lf.map Prod.fst := by
    rw [bwdStep_lf]
    simp
  have hmem_ls : n ∈ (bwdStep g dur T (List.foldl (bwdStep g dur T) ⟨[], []⟩ m₁) n).ls.map Prod.fst := by
    rw [bwdStep_ls]
    simp
  constructor
  · rw [hsplit, bwd_lf_stable g dur T m₂ _ n hmem_lf, bwdStep_lf,
      lookup?_append_right _ _ _ (by rw [hkeys_lf]; exact hn₁), lookup?_cons]
    simp
  · rw [hsplit, bwd_ls_stable g dur T m₂ _ n hmem_ls, bwdStep_ls,
      lookup?_append_right _ _ _ (by rw [hkeys_ls]; exact hn₁), lookup?_cons]
    simp

theorem bwd_succ_final (g : Graph) (dur : String → ℚ) (T : ℚ) (m₁ : List String)
    (n : String) (m₂ : List String) (s : String) (hs : s ∈ m₁) :
    lookupD (List.foldl (bwdStep g dur T) ⟨[], []⟩ m₁).ls s T =
      lookupD (List.foldl (bwdStep g dur T) ⟨[], []⟩ (m₁ ++ n :: m₂)).ls s T := by
  have hkeys_ls : (List.foldl (bwdStep g dur T) ⟨[], []⟩ m₁).ls.map Prod.fst = m₁ := by
    simpa using bwd_ls_keys g dur T m₁ ⟨[], []⟩
  have hsplit : List.foldl (bwdStep g dur T) (⟨[], []⟩ : BwdState) (m₁ ++ n :: m₂) =
      List.foldl (bwdStep g dur T) (List.foldl (bwdStep g dur T) ⟨[], []⟩ m₁) (n :: m₂) := by
    rw [List.foldl_append]
  simp only [lookupD]
  rw [hsplit, bwd_ls_stable g dur T (n :: m₂) _ s (by rw [hkeys_ls]; exact hs)]

theorem backward_node_char (g : Graph) (dur : String → ℚ) (order : List String)
    (ht : topoOf g order) (n : String) (hn : n ∈ order) :
    LFof g dur order n =
      pymin ((g.succs n).map (fun s => LSof g dur order s)) (totalOf g dur order) ∧
    LSof g dur order n = LFof g dur order n - dur n := by
  have hnrev : n ∈ order.reverse := List.mem_reverse.mpr hn
  obtain ⟨m₁, m₂, hsplit⟩ := List.append_of_mem hnrev
  have hndrev : (m₁ ++ n :: m₂).Nodup := by
    rw [← hsplit]
    exact List.nodup_reverse.mpr ht.1
  have hdec := bwd_decomp g dur (totalOf g dur order) m₁ n m₂ hndrev
  have hLF : LFof g dur order n =
      pymin ((g.succs n).map
        (fun s => lookupD (List.foldl (bwdStep g dur (totalOf g dur order)) ⟨[], []⟩ m₁).ls s
          (totalOf g dur order))) (totalOf g dur order) := by
    simp only [LFof, lookupD, bwdPass]
    rw [hsplit, hdec.1]
    rfl
  have hLS : LSof g dur order n =
      pymin ((g.succs n).map
        (fun s => lookupD (List.foldl (bwdStep g dur (totalOf g dur order)) ⟨[], []⟩ m₁).ls s
          (totalOf g dur order))) (totalOf g dur order) - dur n := by
    simp only [LSof, lookupD, bwdPass]
    rw [hsplit, hdec.2]
    rfl
  have hmapeq : ∀ s ∈ g.succs n,
      lookupD (List.foldl (bwdStep g dur (totalOf g dur order)) ⟨[], []⟩ m₁).ls s
        (totalOf g dur order) = LSof g dur order s := by
    intro s hs
    have hedge : (n, s) ∈ g.edges := mem_succs.mp hs
    have hrevsub : List.Sublist [s, n] order.reverse := pair_sublist_rev (ht.2.2.2 _ hedge)
    rw [hsplit] at hrevsub
    have hnm := nodup_split_not_mem hndrev
    have hsm₁ : s ∈ m₁ := pair_sublist_mem s n m₁ hrevsub hnm.1 hnm.2
    have hkeys_ls :
        (List.foldl (bwdStep g dur (totalOf g dur order)) ⟨[], []⟩ m₁).ls.map Prod.fst = m₁ := by
      simpa using bwd_ls_keys g dur (totalOf g dur order) m₁ ⟨[], []⟩
    obtain ⟨v, hv⟩ := exists_lookup?_of_mem_keys _ s (by rw [hkeys_ls]; exact hsm₁)
    have hfull : lookup? (List.foldl (bwdStep g dur (totalOf g dur order)) ⟨[], []⟩
        (m₁ ++ n :: m₂)).ls s = some v := by
      rw [List.foldl_append,
        bwd_ls_stable g dur (totalOf g dur order) (n :: m₂) _ s (by rw [hkeys_ls]; exact hsm₁)]
      exact hv
    simp only [lookupD, LSof, bwdPass]
    rw [hsplit, hv, hfull]
    rfl
  constructor
  · rw [hLF]
    congr 1
    exact List.map_congr_left hmapeq
  · rw [hLS, hLF]

theorem ef_le_lf (g : Graph) (dur : String → ℚ) (order : List String)
    (ht : topoOf g order) :
    ∀ (k : ℕ) (m₁ : List String) (n : String) (m₂ : List String),
      m₁.length = k → order.reverse = m₁ ++ n :: m₂ →
      EFof g dur order n ≤ LFof g dur order n := by
  intro k
  induction k using Nat.strong_induction_on with
  | _ k ih =>
    intro m₁ n m₂ hk hrev
    have hn : n ∈ order := by
      rw [← List.mem_reverse, hrev]
      exact List.mem_append_right _ (List.mem_cons_self n m₂)
    have hne : order ≠ [] := List.ne_nil_of_mem hn
    rw [(backward_node_char g dur order ht n hn).1]
    apply le_pymin
    · exact (totalOf_spec g dur order ht.1 hne).1 n hn
    · intro x hx
      obtain ⟨s, hs, rfl⟩ := List.mem_map.mp hx
      have hedge : (n, s) ∈ g.edges := mem_succs.mp hs
      have hrevsub : List.Sublist [s, n] order.reverse := pair_sublist_rev (ht.2.2.2 _ hedge)
      rw [hrev] at hrevsub
      have hndrev : (m₁ ++ n :: m₂).Nodup := by
        rw [← hrev]
        exact List.nodup_reverse.mpr ht.1
      have hnm := nodup_split_not_mem hndrev
      have hsm₁ : s ∈ m₁ := pair_sublist_mem s n m₁ hrevsub hnm.1 hnm.2
      obtain ⟨a, b, hab⟩ := List.append_of_mem hsm₁
      have hlen : a.length < k := by
        rw [← hk, hab]
        simp [Nat.lt_succ_iff]
      have hrev' : order.reverse = a ++ s :: (b ++ n :: m₂) := by
        rw [hrev, hab]
        simp
      have hEFsLFs : EFof g dur order s ≤ LFof g dur order s :=
        ih a.length hlen a s (b ++ n :: m₂) rfl hrev'
      have hsorder : s ∈ order := by
        rw [← List.mem_reverse, hrev]
        exact List.mem_append_left _ hsm₁
      have hbs := (backward_node_char g dur order ht s hsorder).2
      have hfs := (forward_node_char g dur order ht s hsorder).2
      have h1 : EFof g dur order n ≤ ESof g dur order s :=
        edge_ef_le_es g dur order ht hedge
      rw [hbs]
      have : ESof g dur order s = EFof g dur order s - dur s := by linarith
      linarith

theorem timing_invariants (g : Graph) (dur : String → ℚ) (order : List String)
    (ht : topoOf g order) (n : String) (hn : n ∈ order) :
    ESof g dur order n ≤ LSof g dur order n ∧
    EFof g dur order n ≤ LFof g dur order n ∧
    0 ≤ LFof g dur order n - EFof g dur order n := by
  have hnrev : n ∈ order.reverse := List.mem_reverse.mpr hn
  obtain ⟨m₁, m₂, hsplit⟩ := List.append_of_mem hnrev
  have hEFLF : EFof g dur order n ≤ LFof g dur order n :=
    ef_le_lf g dur order ht m₁.length m₁ n m₂ rfl hsplit
  have hbs := (backward_node_char g dur order ht n hn).2
  have hfs := (forward_node_char g dur order ht n hn).2
  refine ⟨?_, hEFLF, by linarith⟩
  rw [hbs]
  linarith

/-! ### Critical-set membership -/

theorem mem_critical_iff (g : Graph) (dur : String → ℚ) (order : List String)
    (n : String) (hn : n ∈ g.nodes) :
    n ∈ criticalOf g dur order ↔ ESof g dur order n = LSof g dur order n := by
  simp [criticalOf, criticalPath, List.mem_filter, hn, ESof, LSof, lookupD]

/-! ### Graph-construction lemmas -/

theorem addNode_mem (g : Graph) (m : String) : m ∈ (addNode g m).nodes := by
  unfold addNode
  split
  · assumption
  · simp

theorem addNode_mono {g : Graph} {n : String} (h : n ∈ g.nodes) (m : String) :
    n ∈ (addNode g m).nodes := by
  unfold addNode
  split
  · exact h
  · simp [h]

theorem addEdge_nodes (g : Graph) (u v : String) :
    (addEdge g u v).nodes = (addNode (addNode g u) v).nodes := by
  show (if (u, v) ∈ (addNode (addNode g u) v).edges then addNode (addNode g u) v
      else ⟨(addNode (addNode g u) v).nodes,
        (addNode (addNode g u) v).edges ++ [(u, v)]⟩).nodes =
    (addNode (addNode g u) v).nodes
  split <;> rfl

theorem addEdge_mem_fst (g : Graph) (u v : String) : u ∈ (addEdge g u v).nodes := by
  rw [addEdge_nodes]
  exact addNode_mono (addNode_mem g u) v

theorem addEdge_mono {g : Graph} {n : String} (h : n ∈ g.nodes) (u v : String) :
    n ∈ (addEdge g u v).nodes := by
  rw [addEdge_nodes]
  exact addNode_mono (addNode_mono h u) v

theorem edges_foldl_mono {n : String} (a : String) :
    ∀ (l : List String) (g : Graph), n ∈ g.nodes →
      n ∈ (l.foldl (fun g' p => addEdge g' p a) g).nodes := by
  intro l
  induction l with
  | nil => intro g h; exact h
  | cons q t ih =>
    intro g h
    rw [List.foldl_cons]
    exact ih _ (addEdge_mono h q a)

theorem edges_foldl_adds {p : String} (a : String) :
    ∀ (l : List String) (g : Graph), p ∈ l →
      p ∈ (l.foldl (fun g' q => addEdge g' q a) g).nodes := by
  intro l
  induction l with
  | nil => intro g h; simp at h
  | cons q t ih =>
    intro g h
    rw [List.foldl_cons]
    rcases List.mem_cons.mp h with rfl | h1
    · exact edges_foldl_mono a t _ (addEdge_mem_fst g p a)
    · exact ih _ h1

theorem buildStep_mono {n : String} (e : String × ActData) (g : Graph)
    (h : n ∈ g.nodes) :
    n ∈ (e.2.predecessors.foldl (fun g' p => addEdge g' p e.1) (addNode g e.1)).nodes :=
  edges_foldl_mono e.1 _ _ (addNode_mono h e.1)

theorem build_foldl_mono {n : String} :
    ∀ (acts : List (String × ActData)) (g : Graph), n ∈ g.nodes →
      n ∈ (acts.foldl
        (fun g' e' => e'.2.predecessors.foldl
          (fun g'' q => addEdge g'' q e'.1) (addNode g' e'.1)) g).nodes := by
  intro acts
  induction acts with
  | nil => intro g h; exact h
  | cons e0 t ih =>
    intro g h
    rw [List.foldl_cons]
    exact ih _ (buildStep_mono e0 g h)

theorem buildGraph_mem_pred :
    ∀ (acts : List (String × ActData)) (g : Graph) (e : String × ActData)
      (p : String), e ∈ acts → p ∈ e.2.predecessors →
      p ∈ (acts.foldl
        (fun g' e' => e'.2.predecessors.foldl
          (fun g'' q => addEdge g'' q e'.1) (addNode g' e'.1)) g).nodes := by
  intro acts
  induction acts with
  | nil => intro g e p h _; simp at h
  | cons e0 t ih =>
    intro g e p he hp
    rw [List.foldl_cons]
    rcases List.mem_cons.mp he with rfl | h1
    · exact build_foldl_mono t _ (edges_foldl_adds e.1 _ _ hp)
    · exact ih _ e p h1 hp

/-! ### Dict-assignment lemmas -/

theorem lookup?_eq_none {α : Type} (m : List (String × α)) (k : String)
    (h : k ∉ m.map Prod.fst) : lookup? m k = none := by
  induction m with
  | nil => rfl
  | cons e t ih =>
    have he : e.1 ≠ k := fun hk => h (by simp [hk])
    rw [lookup?_cons, if_neg he]
    exact ih (fun hk => h (by simp [hk]))

theorem lookup?_map_replace {α : Type} (m : List (String × α)) (k : String) (v : α)
    (h : m.any (fun e => decide (e.1 = k)) = true) :
    lookup? (m.map (fun e => if e.1 = k then (k, v) else e)) k = some v := by
  induction m with
  | nil => simp at h
  | cons e t ih =>
    by_cases he : e.1 = k
    · rw [List.map_cons, if_pos he, lookup?_cons]
      simp
    · have h' : t.any (fun e => decide (e.1 = k)) = true := by
        rcases List.any_eq_true.mp h with ⟨e', he', hk⟩
        rcases List.mem_cons.mp he' with rfl | h1
        · exact absurd (of_decide_eq_true hk) he
        · exact List.any_eq_true.mpr ⟨e', h1, hk⟩
      rw [List.map_cons, if_neg he, lookup?_cons, if_neg he]
      exact ih h'

theorem lookup?_map_replace_ne {α : Type} (m : List (String × α)) (k' : String) (v : α)
    (k : String) (hne : k' ≠ k) :
    lookup? (m.map (fun e => if e.1 = k' then (k', v) else e)) k = lookup? m k := by
  induction m with
  | nil => rfl
  | cons e t ih =>
    by_cases he : e.1 = k'
    · rw [List.map_cons, if_pos he, lookup?_cons, lookup?_cons]
      have : ¬ ((k', v).1 = k) := hne
      rw [if_neg this, if_neg (by rw [he]; exact hne)]
      exact ih
    · rw [List.map_cons, if_neg he, lookup?_cons, lookup?_cons]
      by_cases hek : e.1 = k
      · rw [if_pos hek, if_pos hek]
      · rw [if_neg hek, if_neg hek]
        exact ih

theorem not_mem_keys_of_not_any {α : Type} (m : List (String × α)) (k : String)
    (h : ¬ m.any (fun e => decide (e.1 = k)) = true) : k ∉ m.map Prod.fst := by
  intro hm
  obtain ⟨e, he, hfst⟩ := List.mem_map.mp hm
  exact h (List.any_eq_true.mpr ⟨e, he, by simp [hfst]⟩)

theorem lookup?_dictInsert_self {α : Type} (m : List (String × α)) (k : String) (v : α) :
    lookup? (dictInsert m k v) k = some v := by
  unfold dictInsert
  by_cases h : m.any (fun e => decide (e.1 = k)) = true
  · rw [if_pos h]
    exact lookup?_map_replace m k v h
  · rw [if_neg h, lookup?_append_right _ _ _ (not_mem_keys_of_not_any m k h), lookup?_cons]
    simp

theorem lookup?_dictInsert_ne {α : Type} (m : List (String × α)) (k' : String) (v : α)
    (k : String) (hne : k' ≠ k) :
    lookup? (dictInsert m k' v) k = lookup? m k := by
  unfold dictInsert
  by_cases h : m.any (fun e => decide (e.1 = k')) = true
  · rw [if_pos h]
    exact lookup?_map_replace_ne m k' v k hne
  · rw [if_neg h]
    by_cases hk : k ∈ m.map Prod.fst
    · rw [lookup?_append_left _ _ _ hk]
    · rw [lookup?_append_right _ _ _ hk, lookup?_cons, if_neg hne,
        lookup?_eq_none m k hk]
      rfl

theorem keys_dictInsert_replace {α : Type} (m : List (String × α)) (k : String) (v : α)
    (h : m.any (fun e => decide (e.1 = k)) = true) :
    (dictInsert m k v).map Prod.fst = m.map Prod.fst := by
  unfold dictInsert
  rw [if_pos h, List.map_map]
  apply List.map_congr_left
  intro e _
  by_cases he : e.1 = k <;> simp [he]

theorem keys_dictInsert_append {α : Type} (m : List (String × α)) (k : String) (v : α)
    (h : ¬ m.any (fun e => decide (e.1 = k)) = true) :
    (dictInsert m k v).map Prod.fst = m.map Prod.fst ++ [k] := by
  unfold dictInsert
  rw [if_neg h]
  simp

theorem dictInsert_keys_nodup {α : Type} (m : List (String × α)) (k : String) (v : α)
    (h : (m.map Prod.fst).Nodup) : ((dictInsert m k v).map Prod.fst).Nodup := by
  by_cases ha : m.any (fun e => decide (e.1 = k)) = true
  · rw [keys_dictInsert_replace m k v ha]
    exact h
  · rw [keys_dictInsert_append m k v ha, List.nodup_append]
    refine ⟨h, by simp, ?_⟩
    intro a ham hak
    rw [List.mem_singleton.mp hak] at ham
    exact not_mem_keys_of_not_any m k ha ham

/-! ### Ingestion-fold lemmas -/

theorem read_foldl_skip :
    ∀ (rows : List Row) (acc : List (String × ActData)) (k : String),
      (∀ r ∈ rows, r.activity.trim ≠ k) →
      lookup? (rows.foldl (fun acts r =>
        dictInsert acts r.activity.trim ⟨r.a, r.m, r.b, parsePreds r.precedent⟩) acc) k =
      lookup? acc k := by
  intro rows
  induction rows with
  | nil => intro acc k _; rfl
  | cons r t ih =>
    intro acc k h
    rw [List.foldl_cons, ih _ _ (fun r' hr' => h r' (List.mem_cons_of_mem _ hr')),
      lookup?_dictInsert_ne _ _ _ _ (h r (List.mem_cons_self r t))]

theorem read_foldl_keys_nodup :
    ∀ (rows : List Row) (acc : List (String × ActData)),
      (acc.map Prod.fst).Nodup →
      ((rows.foldl (fun acts r =>
        dictInsert acts r.activity.trim ⟨r.a, r.m, r.b, parsePreds r.precedent⟩) acc).map
          Prod.fst).Nodup := by
  intro rows
  induction rows with
  | nil => intro acc h; exact h
  | cons r t ih =>
    intro acc h
    rw [List.foldl_cons]
    exact ih _ (dictInsert_keys_nodup _ _ _ h)

/-! ### Claim theorems -/

/-- C2: for every valid DAG (a topological order exists covering the nodes)
with non-negative durations, after the forward and backward passes every
node satisfies ES ≤ LS, EF ≤ LF and slack = LF − EF ≥ 0.  The inequalities
are proved exactly over ℚ, which in particular implies them up to the
ε = 10⁻⁹ tolerance mentioned in the claim. -/
theorem c2_timing_invariants (g : Graph) (dur : String → ℚ) (order : List String)
    (ht : topoOf g order) (hdur : ∀ x, 0 ≤ dur x) (n : String) (hn : n ∈ g.nodes) :
    ESof g dur order n ≤ LSof g dur order n ∧
    EFof g dur order n ≤ LFof g dur order n ∧
    0 ≤ LFof g dur order n - EFof g dur order n :=
  timing_invariants g dur order ht n (ht.2.1 n hn)

/-- C3: for every non-empty DAG (with the non-negative durations guaranteed
by the data model), the forward pass computes ES as the maximum of EF over
the predecessors (0 when there are none, since `pymax [] 0 = 0`) and
EF = ES + duration; total_project_duration bounds EF of every node and is
attained at some node with no successors. -/
theorem c3_forward_pass (g : Graph) (dur : String → ℚ) (order : List String)
    (ht : topoOf g order) (hdur : ∀ x, 0 ≤ dur x) (hne : g.nodes ≠ []) :
    (∀ n ∈ g.nodes,
      ESof g dur order n = pymax ((g.preds n).map (fun p => EFof g dur order p)) 0 ∧
      EFof g dur order n = ESof g dur order n + dur n) ∧
    (∀ n ∈ g.nodes, EFof g dur order n ≤ totalOf g dur order) ∧
    ∃ m ∈ g.nodes, g.succs m = [] ∧ EFof g dur order m = totalOf g dur order := by
  have hone : ∀ x ∈ g.nodes, x ∈ order := ht.2.1
  have horder_ne : order ≠ [] := by
    obtain ⟨n, hn⟩ := List.exists_mem_of_ne_nil _ hne
    exact List.ne_nil_of_mem (hone n hn)
  refine ⟨fun n hn => forward_node_char g dur order ht n (hone n hn),
    fun n hn => (totalOf_spec g dur order ht.1 horder_ne).1 n (hone n hn), ?_⟩
  obtain ⟨m0, hm0, hEF0⟩ := (totalOf_spec g dur order ht.1 horder_ne).2
  obtain ⟨m, hm, hsucc, hEF⟩ :=
    max_ef_sink g dur order ht hdur order [] rfl ⟨m0, hm0, hEF0⟩
  exact ⟨m, ht.2.2.1 m hm, hsucc, hEF⟩

/-- C4: for every non-empty DAG, the backward pass computes LF as the
minimum of LS over the successors, defaulting to total_project_duration for
nodes with no successors (so every sink has LF = total duration), and
LS = LF − duration. -/
theorem c4_backward_pass (g : Graph) (dur : String → ℚ) (order : List String)
    (ht : topoOf g order) (n : String) (hn : n ∈ g.nodes) :
    LFof g dur order n =
      pymin ((g.succs n).map (fun s => LSof g dur order s)) (totalOf g dur order) ∧
    LSof g dur order n = LFof g dur order n - dur n ∧
    (g.succs n = [] → LFof g dur order n = totalOf g dur order) := by
  have h := backward_node_char g dur order ht n (ht.2.1 n hn)
  refine ⟨h.1, h.2, fun hs => ?_⟩
  rw [h.1, hs]
  rfl

/-- C5 (amended): a node is placed in the critical set iff its slack
LF − EF is EXACTLY zero (the source compares `earliest_start[node] ==
latest_start[node]` with plain float equality); no 10⁻⁹ tolerance is
applied. -/
theorem c5_critical_iff_exact_zero_slack (g : Graph) (dur : String → ℚ)
    (order : List String) (ht : topoOf g order) (n : String) (hn : n ∈ g.nodes) :
    n ∈ criticalOf g dur order ↔ LFof g dur order n - EFof g dur order n = 0 := by
  rw [mem_critical_iff g dur order n hn]
  have hb := (backward_node_char g dur order ht n (ht.2.1 n hn)).2
  have hf := (forward_node_char g dur order ht n (ht.2.1 n hn)).2
  constructor
  · intro h
    linarith
  · intro h
    linarith

/-- C7 (amended): a predecessor name matching no ingested activity does NOT
make graph building fail; `add_edge` silently adds it as a node and the
attribute-defaulting loop gives it duration 0, so it is scheduled like any
other node. -/
theorem c7_missing_pred_scheduled (acts : List (String × ActData))
    (e : String × ActData) (p : String) (he : e ∈ acts)
    (hp : p ∈ e.2.predecessors) :
    p ∈ (buildGraph acts).nodes ∧ (lookup? acts p = none → durationOf acts p = 0) := by
  constructor
  · have := buildGraph_mem_pred acts ⟨[], []⟩ e p he hp
    rw [buildGraph]
    exact this
  · intro h
    unfold durationOf
    rw [h]

/-- C8 (amended): ingestion performs no validation at all: every record —
also one with an empty name or with optimistic > most_likely >
pessimistic — is stored as-is under its stripped name, and TE, variance and
standard deviation are computed for it unconditionally by the derivation
loop. -/
theorem c8_ingestion_unvalidated (r : Row) :
    lookup? (read_activity_data [r]) r.activity.trim =
      some ⟨r.a, r.m, r.b, parsePreds r.precedent⟩ ∧
    TE ⟨r.a, r.m, r.b, parsePreds r.precedent⟩ = (r.a + 4 * r.m + r.b) / 6 ∧
    variance_val ⟨r.a, r.m, r.b, parsePreds r.precedent⟩ = ((r.b - r.a) / 6) ^ 2 := by
  refine ⟨?_, rfl, rfl⟩
  rw [read_activity_data, List.foldl_cons, List.foldl_nil]
  exact lookup?_dictInsert_self _ _ _

/-- C9: the subset-statistics utility silently skips names with no matching
activity, returns variance 0 and standard deviation 0 when fewer than two
TE values are found, and otherwise returns the sample variance (division by
n − 1) of the collected TE values and its square root. -/
theorem c9_subset_stats (acts : List (String × ActData)) :
    (∀ (n₁ n₂ : List String) (x : String), lookup? acts x = none →
      specificDurations (n₁ ++ x :: n₂) acts = specificDurations (n₁ ++ n₂) acts) ∧
    (∀ specific : List String, (specificDurations specific acts).length < 2 →
      specific_variance specific acts = 0 ∧ specific_std_dev specific acts = 0) ∧
    (∀ specific : List String, 2 ≤ (specificDurations specific acts).length →
      specific_variance specific acts =
        ((specificDurations specific acts).map
          (fun x => (x - (specificDurations specific acts).sum /
            ((specificDurations specific acts).length : ℚ)) ^ 2)).sum /
          (((specificDurations specific acts).length : ℚ) - 1) ∧
      specific_std_dev specific acts = Real.sqrt (specific_variance specific acts)) := by
  refine ⟨?_, ?_, ?_⟩
  · intro n₁ n₂ x hx
    simp [specificDurations, List.filterMap_append, List.filterMap_cons, hx]
  · intro specific hlen
    have h2 : ¬ 1 < (specificDurations specific acts).length := by omega
    exact ⟨by rw [specific_variance, if_neg h2], by rw [specific_std_dev, if_neg h2]⟩
  · intro specific hlen
    have h2 : 1 < (specificDurations specific acts).length := by omega
    constructor
    · rw [specific_variance, if_pos h2, sampleVariance, listMean]
    · rw [specific_std_dev, if_pos h2, specific_variance, if_pos h2]

/-- C10: when two rows have the same stripped activity name, ingestion
raises no error; the dict assignment keeps exactly the later row's data
(and the store still has a single entry per key). -/
theorem c10_duplicate_name_last_wins (l₁ l₂ l₃ : List Row) (r₁ r₂ : Row)
    (hk : r₁.activity.trim = r₂.activity.trim)
    (h3 : ∀ r ∈ l₃, r.activity.trim ≠ r₂.activity.trim) :
    lookup? (read_activity_data (l₁ ++ r₁ :: l₂ ++ r₂ :: l₃)) r₂.activity.trim =
      some ⟨r₂.a, r₂.m, r₂.b, parsePreds r₂.precedent⟩ ∧
    ((read_activity_data (l₁ ++ r₁ :: l₂ ++ r₂ :: l₃)).map Prod.fst).Nodup := by
  constructor
  · rw [read_activity_data]
    have hassoc : l₁ ++ r₁ :: l₂ ++ r₂ :: l₃ = (l₁ ++ r₁ :: l₂) ++ r₂ :: l₃ := by simp
    rw [hassoc, List.foldl_append, List.foldl_cons]
    rw [read_foldl_skip l₃ _ _ h3]
    exact lookup?_dictInsert_self _ _ _
  · rw [read_activity_data]
    exact read_foldl_keys_nodup _ [] (by simp)

/-! ### Non-negativity of the duration attribute -/

theorem durationOf_nonneg (acts : List (String × ActData))
    (h : ∀ e ∈ acts, 0 ≤ TE e.2) : ∀ n, 0 ≤ durationOf acts n := by
  intro n
  unfold durationOf
  cases hl : lookup? acts n with
  | none => exact le_refl 0
  | some d => exact h (n, d) (mem_of_lookup?_eq_some hl)

theorem exDur_nonneg : ∀ n, 0 ≤ exDur n := by
  have h : ∀ e ∈ exActs, 0 ≤ TE e.2 := by
    intro e he
    simp [exActs] at he
    rcases he with rfl | rfl | rfl <;> norm_num [TE]
  exact durationOf_nonneg exActs h

/-! ### Concrete pipeline evaluations -/

theorem g5_eq : g5 = ⟨["A", "B"], []⟩ := by decide

theorem fw5_eq : fwdPass g5 (durationOf acts5) order5 =
    ⟨[("A", 0), ("B", 0)], [("A", 1), ("B", 10000000001/10000000000)]⟩ := by
  simp [fwdPass, fwdStep, pymax, lookupD, lookup?, Graph.preds, durationOf, TE,
    g5_eq, acts5, order5, String.reduceEq, List.find?_cons, List.filter_cons,
    List.filter_nil]
  norm_num

theorem t5_eq : totalOf g5 (durationOf acts5) order5 = 10000000001/10000000000 := by
  rw [totalOf, fw5_eq]
  norm_num [totalProjectDuration, pyArgmax]
  simp [lookupD, lookup?, String.reduceEq, List.find?_cons]

theorem bw5_eq : bwdPass g5 (durationOf acts5) (10000000001/10000000000) order5 =
    ⟨[("B", 10000000001/10000000000), ("A", 10000000001/10000000000)],
     [("B", 0), ("A", 1/10000000000)]⟩ := by
  simp [bwdPass, bwdStep, pymin, lookupD, lookup?, Graph.succs, durationOf, TE,
    g5_eq, acts5, order5, String.reduceEq, List.find?_cons, List.filter_cons,
    List.filter_nil]
  norm_num

theorem gZ_eq : gZ = ⟨["Z"], []⟩ := by decide

theorem fwZ_eq : fwdPass gZ (durationOf actsZ) orderZ = ⟨[("Z", 0)], [("Z", 1)]⟩ := by
  simp [fwdPass, fwdStep, pymax, lookupD, lookup?, Graph.preds, durationOf, TE,
    gZ_eq, actsZ, orderZ, String.reduceEq, List.find?_cons, List.filter_cons,
    List.filter_nil]
  norm_num

theorem tZ_eq : totalOf gZ (durationOf actsZ) orderZ = 1 := by
  rw [totalOf, fwZ_eq]
  norm_num [totalProjectDuration, pyArgmax]
  simp [lookupD, lookup?, String.reduceEq, List.find?_cons]

theorem bwZ_eq : bwdPass gZ (durationOf actsZ) 1 orderZ = ⟨[("Z", 1)], [("Z", 0)]⟩ := by
  simp [bwdPass, bwdStep, pymin, lookupD, lookup?, Graph.succs, durationOf, TE,
    gZ_eq, actsZ, orderZ, String.reduceEq, List.find?_cons, List.filter_cons,
    List.filter_nil]
  norm_num

theorem critZ_eq : criticalOf gZ (durationOf actsZ) orderZ = ["Z"] := by
  rw [criticalOf, tZ_eq, fwZ_eq, bwZ_eq]
  simp [criticalPath, lookupD, lookup?, gZ_eq, String.reduceEq, List.find?_cons,
    List.filter_cons, List.filter_nil]

theorem gW_eq : gW = ⟨["W"], []⟩ := by decide

theorem fwW_eq : fwdPass gW (durationOf actsW) orderW = ⟨[("W", 0)], [("W", 2)]⟩ := by
  simp [fwdPass, fwdStep, pymax, lookupD, lookup?, Graph.preds, durationOf, TE,
    gW_eq, actsW, orderW, String.reduceEq, List.find?_cons, List.filter_cons,
    List.filter_nil]
  norm_num

theorem tW_eq : totalOf gW (durationOf actsW) orderW = 2 := by
  rw [totalOf, fwW_eq]
  norm_num [totalProjectDuration, pyArgmax]
  simp [lookupD, lookup?, String.reduceEq, List.find?_cons]

theorem bwW_eq : bwdPass gW (durationOf actsW) 2 orderW = ⟨[("W", 2)], [("W", 0)]⟩ := by
  simp [bwdPass, bwdStep, pymin, lookupD, lookup?, Graph.succs, durationOf, TE,
    gW_eq, actsW, orderW, String.reduceEq, List.find?_cons, List.filter_cons,
    List.filter_nil]
  norm_num

theorem critW_eq : criticalOf gW (durationOf actsW) orderW = ["W"] := by
  rw [criticalOf, tW_eq, fwW_eq, bwW_eq]
  simp [criticalPath, lookupD, lookup?, gW_eq, String.reduceEq, List.find?_cons,
    List.filter_cons, List.filter_nil]

theorem g7_eq : g7 = ⟨["A", "X"], [("X", "A")]⟩ := by decide

theorem fw7_eq : fwdPass g7 (durationOf acts7) order7 =
    ⟨[("X", 0), ("A", 0)], [("X", 0), ("A", 2)]⟩ := by
  simp [fwdPass, fwdStep, pymax, lookupD, lookup?, Graph.preds, durationOf, TE,
    g7_eq, acts7, order7, String.reduceEq, List.find?_cons, List.filter_cons,
    List.filter_nil]
  norm_num

/-! ### Remaining claim theorems: counterexamples, code-bug witnesses -/

/-- C5 (counterexample): in this two-activity store the slack of "A" is
1/10¹⁰ — positive but within the claimed 10⁻⁹ tolerance — yet "A" is NOT
placed in the critical set, because line 84 compares ES and LS with exact
equality.  This refutes the claim that membership uses the ε = 10⁻⁹
tolerance. -/
theorem c5_tolerance_counterexample :
    topoOf g5 order5 ∧
    0 < LFof g5 (durationOf acts5) order5 "A" - EFof g5 (durationOf acts5) order5 "A" ∧
    LFof g5 (durationOf acts5) order5 "A" - EFof g5 (durationOf acts5) order5 "A" ≤
      1/1000000000 ∧
    "A" ∉ criticalOf g5 (durationOf acts5) order5 := by
  have hLF : LFof g5 (durationOf acts5) order5 "A" = 10000000001/10000000000 := by
    rw [LFof, t5_eq, bw5_eq]
    simp [lookupD, lookup?, String.reduceEq, List.find?_cons]
  have hEF : EFof g5 (durationOf acts5) order5 "A" = 1 := by
    rw [EFof, fw5_eq]
    simp [lookupD, lookup?, String.reduceEq, List.find?_cons]
  have hcrit : criticalOf g5 (durationOf acts5) order5 = ["B"] := by
    rw [criticalOf, t5_eq, fw5_eq, bw5_eq]
    simp [criticalPath, lookupD, lookup?, g5_eq, String.reduceEq, List.find?_cons,
      List.filter_cons, List.filter_nil]
  refine ⟨by unfold topoOf; decide, ?_, ?_, ?_⟩
  · rw [hLF, hEF]
    norm_num
  · rw [hLF, hEF]
    norm_num
  · rw [hcrit]
    simp

/-- C1 (code bug): on an input whose critical path has total variance 0 —
a single degenerate activity — the claim says the PERT analysis completes
and reports z-score 0 and probability 0; but line 121 reads the global
`total_standard_deviation`, which is never assigned anywhere in the file,
so Python raises NameError instead of producing the degenerate output. -/
theorem c1_pert_nameError_zero_variance :
    topoOf gZ orderZ ∧
    criticalOf gZ (durationOf actsZ) orderZ = ["Z"] ∧
    ((criticalOf gZ (durationOf actsZ) orderZ).map (varianceOf actsZ)).sum = 0 ∧
    pertZRows total_standard_deviation actsZ (totalOf gZ (durationOf actsZ) orderZ)
      (fwdPass gZ (durationOf actsZ) orderZ).ef = Except.error PertError.nameError := by
  refine ⟨by unfold topoOf; decide, critZ_eq, ?_, rfl⟩
  rw [critZ_eq]
  simp [varianceOf, variance_val, lookup?, actsZ, String.reduceEq, List.find?_cons]

/-- C6 (code bug): on an input whose critical path has total variance
1/9 > 0, the claim says the analysis computes total-standard-deviation and
per-activity z-scores and probabilities; but `total_standard_deviation` is
never assigned anywhere in the file, so line 121 raises NameError and no
z-score or probability is ever produced. -/
theorem c6_pert_nameError_positive_variance :
    topoOf gW orderW ∧
    criticalOf gW (durationOf actsW) orderW = ["W"] ∧
    ((criticalOf gW (durationOf actsW) orderW).map (varianceOf actsW)).sum = 1/9 ∧
    pertZRows total_standard_deviation actsW (totalOf gW (durationOf actsW) orderW)
      (fwdPass gW (durationOf actsW) orderW).ef = Except.error PertError.nameError := by
  refine ⟨by unfold topoOf; decide, critW_eq, ?_, rfl⟩
  rw [critW_eq]
  simp [varianceOf, variance_val, lookup?, actsW, String.reduceEq, List.find?_cons]
  norm_num

/-- C7 (counterexample): the store `acts7` lists predecessor "X" that
matches no activity, yet graph building completes — "X" becomes a node with
an edge to "A" — the defaulting loop gives it duration 0, and the forward
pass schedules the project (EF("A") = 2).  No ReferenceError is raised. -/
theorem c7_missing_pred_counterexample :
    lookup? acts7 "X" = none ∧
    g7 = ⟨["A", "X"], [("X", "A")]⟩ ∧
    durationOf acts7 "X" = 0 ∧
    topoOf g7 order7 ∧
    EFof g7 (durationOf acts7) order7 "A" = 2 := by
  refine ⟨rfl, g7_eq, rfl, by unfold topoOf; decide, ?_⟩
  rw [EFof, fw7_eq]
  simp [lookupD, lookup?, String.reduceEq, List.find?_cons]

/-- C8 (counterexample): `badRow` has an empty activity name and a
three-point estimate with optimistic 3 > most-likely 1 > pessimistic 0;
the claim says ingestion rejects it with ValidationError, but
`read_activity_data` stores it unchanged and its TE = 7/6 and
variance = 1/4 are then computed by the derivation loop. -/
theorem c8_no_validation_counterexample :
    badRow.activity = "" ∧ badRow.m < badRow.a ∧ badRow.b < badRow.m ∧
    lookup? (read_activity_data [badRow]) badRow.activity.trim =
      some ⟨3, 1, 0, parsePreds badRow.precedent⟩ ∧
    TE ⟨3, 1, 0, parsePreds badRow.precedent⟩ = 7/6 ∧
    variance_val ⟨3, 1, 0, parsePreds badRow.precedent⟩ = 1/4 := by
  refine ⟨rfl, by norm_num [badRow], by norm_num [badRow], ?_, by norm_num [TE],
    by norm_num [variance_val]⟩
  rw [read_activity_data, List.foldl_cons, List.foldl_nil]
  exact lookup?_dictInsert_self _ _ _

/-! ### Witnesses -/

theorem c2_witness :
    ESof exG exDur exOrder "C" ≤ LSof exG exDur exOrder "C" ∧
    EFof exG exDur exOrder "C" ≤ LFof exG exDur exOrder "C" ∧
    0 ≤ LFof exG exDur exOrder "C" - EFof exG exDur exOrder "C" :=
  c2_timing_invariants exG exDur exOrder ex_topo exDur_nonneg "C" (by simp [exG_eq])

theorem c3_witness :
    (∀ n ∈ exG.nodes,
      ESof exG exDur exOrder n =
        pymax ((exG.preds n).map (fun p => EFof exG exDur exOrder p)) 0 ∧
      EFof exG exDur exOrder n = ESof exG exDur exOrder n + exDur n) ∧
    (∀ n ∈ exG.nodes, EFof exG exDur exOrder n ≤ totalOf exG exDur exOrder) ∧
    ∃ m ∈ exG.nodes, exG.succs m = [] ∧
      EFof exG exDur exOrder m = totalOf exG exDur exOrder :=
  c3_forward_pass exG exDur exOrder ex_topo exDur_nonneg (by simp [exG_eq])

theorem c4_witness :
    LFof exG exDur exOrder "C" =
      pymin ((exG.succs "C").map (fun s => LSof exG exDur exOrder s))
        (totalOf exG exDur exOrder) ∧
    LSof exG exDur exOrder "C" = LFof exG exDur exOrder "C" - exDur "C" ∧
    (exG.succs "C" = [] → LFof exG exDur exOrder "C" = totalOf exG exDur exOrder) :=
  c4_backward_pass exG exDur exOrder ex_topo "C" (by simp [exG_eq])

theorem c5_witness :
    "B" ∈ criticalOf exG exDur exOrder ↔
      LFof exG exDur exOrder "B" - EFof exG exDur exOrder "B" = 0 :=
  c5_critical_iff_exact_zero_slack exG exDur exOrder ex_topo "B" (by simp [exG_eq])

theorem c7_witness :
    "X" ∈ (buildGraph acts7).nodes ∧
    (lookup? acts7 "X" = none → durationOf acts7 "X" = 0) :=
  c7_missing_pred_scheduled acts7 ("A", ⟨1, 2, 3, ["X"]⟩) "X" (by simp [acts7]) (by simp)

theorem c9_witness :
    specific_variance ["A"] exActs = 0 ∧ specific_std_dev ["A"] exActs = 0 :=
  (c9_subset_stats exActs).2.1 ["A"] (by decide)

theorem c10_witness :
    lookup? (read_activity_data
        ([] ++ (⟨"A", "", 1, 1, 1⟩ : Row) :: [] ++ (⟨"A", "B", 2, 2, 2⟩ : Row) :: []))
        ((⟨"A", "B", 2, 2, 2⟩ : Row).activity.trim) =
      some ⟨(⟨"A", "B", 2, 2, 2⟩ : Row).a, (⟨"A", "B", 2, 2, 2⟩ : Row).m,
        (⟨"A", "B", 2, 2, 2⟩ : Row).b, parsePreds (⟨"A", "B", 2, 2, 2⟩ : Row).precedent⟩ ∧
    ((read_activity_data
        ([] ++ (⟨"A", "", 1, 1, 1⟩ : Row) :: [] ++ (⟨"A", "B", 2, 2, 2⟩ : Row) :: [])).map
        Prod.fst).Nodup :=
  c10_duplicate_name_last_wins [] [] [] ⟨"A", "", 1, 1, 1⟩ ⟨"A", "B", 2, 2, 2⟩ rfl
    (by simp)

end CPMPert
